import Mathlib

/-!
# Verification of the auto-clicker Input Automation Engine

A shallow embedding, in Lean 4, of the core of the `auto-clicker` repository:

* `ui_to_win32_hotkey` and the hotkey registry
  (`src/frontend/utils/keyboard_listener.py`),
* the tiered synthetic-input injector `perform_native_click` and the
  continuous click engine (`src/backend/services/cursor_clicker_service.py`),
* the click-path playback engine
  (`src/backend/services/click_path_executor_service.py`).

Python strings are embedded as `List Char` (ASCII in all inputs of interest),
Python integers as `Int`, and Python dicts as insertion-ordered association
lists.  Environment-dependent outcomes (Win32 API results, timing, thread
interleavings) are made explicit parameters: the OS side of hotkey
registration is a table of taken (modifiers, vk) combinations, stop events
are oracles indexed by loop iteration, and unbounded loops take fuel.
-/

namespace AutoClicker

/-! ## Python string primitives

Helpers modelling the Python `str` operations used by the source:
`split("+")`, `strip()`, `lower()` and `int()` (on the ASCII strings that can
actually occur as hotkey-spec parts). -/

/-- Whitespace characters removed by Python `str.strip()`. -/
def pySpace (c : Char) : Bool :=
  c = ' ' || c = '\t' || c = '\n' || c = '\r' || c = '\x0b' || c = '\x0c'

/-- Python `s.strip()`: drop leading and trailing whitespace. -/
def pyStrip (s : List Char) : List Char :=
  ((s.dropWhile pySpace).reverse.dropWhile pySpace).reverse

/-- Python `s.lower()` restricted to ASCII (all hotkey specs are ASCII). -/
def pyLowerChar (c : Char) : Char :=
  if 'A' ≤ c ∧ c ≤ 'Z' then Char.ofNat (c.toNat + 32) else c

/-- Python `s.lower()` on a whole string. -/
def pyLower (s : List Char) : List Char :=
  s.map pyLowerChar

/-- Python `s.split(sep)` for a one-character separator: `"".split("+") = [""]`,
`"a++b".split("+") = ["a", "", "b"]`. -/
def pySplitOn (sep : Char) : List Char → List (List Char)
  | [] => [[]]
  | c :: rest =>
    let r := pySplitOn sep rest
    if c = sep then
      [] :: r
    else
      match r with
      | h :: t => (c :: h) :: t
      | [] => [[c]]

/-- Value of a nonempty all-digit string. -/
def digitsVal (ds : List Char) : Option Int :=
  if ds ≠ [] ∧ ds.all Char.isDigit then
    some (ds.foldl (fun a c => a * 10 + (Int.ofNat c.toNat - 48)) 0)
  else
    none

/-- Python `int(s)` on the ASCII strings reachable here: surrounding
whitespace is stripped, an optional sign is accepted, then decimal digits;
anything else raises `ValueError`, modelled as `none`. -/
def pyInt (s : List Char) : Option Int :=
  match pyStrip s with
  | '+' :: ds => digitsVal ds
  | '-' :: ds => (digitsVal ds).map (fun v => -v)
  | ds => digitsVal ds

/-! ## Hotkey spec conversion (`keyboard_listener.py` lines 38-123) -/

/-- Win32 `MOD_ALT`. -/
def MOD_ALT : Nat := 0x0001
/-- Win32 `MOD_CONTROL`. -/
def MOD_CONTROL : Nat := 0x0002
/-- Win32 `MOD_SHIFT`. -/
def MOD_SHIFT : Nat := 0x0004
/-- Win32 `MOD_WIN`. -/
def MOD_WIN : Nat := 0x0008
/-- Virtual key code of F1. -/
def VK_F1 : Nat := 0x70

/-- The literal `VK_CODE_MAP` dictionary of `keyboard_listener.py` (lines
59-70): digits `'0'..'9'`, lowercase letters `'a'..'z'`, and the function-key
names `"f1".."f12"`; every other string is absent. -/
def VK_CODE_MAP (part : List Char) : Option Nat :=
  match part with
  | [c] =>
    if '0' ≤ c ∧ c ≤ '9' then some (0x30 + (c.toNat - '0'.toNat))
    else if 'a' ≤ c ∧ c ≤ 'z' then some (0x41 + (c.toNat - 'a'.toNat))
    else none
  | ['f', c] =>
    if '1' ≤ c ∧ c ≤ '9' then some (VK_F1 + (c.toNat - '1'.toNat)) else none
  | ['f', '1', c] =>
    if '0' ≤ c ∧ c ≤ '2' then some (0x79 + (c.toNat - '0'.toNat)) else none
  | _ => none

/-- The body of the `for part in parts` loop of `ui_to_win32_hotkey`
(lines 91-118), with the two Python mutable locals `modifiers` and `vk_code`
threaded as accumulators. -/
def hotkeyPartsFold : List (List Char) → Nat → Option Nat → Nat × Option Nat
  | [], mods, vk => (mods, vk)
  | p :: rest, mods, vk =>
    let part := pyLower (pyStrip p)
    if part = [] then
      hotkeyPartsFold rest mods vk
    else if part = "ctrl".toList then
      hotkeyPartsFold rest (mods ||| MOD_CONTROL) vk
    else if part = "alt".toList then
      hotkeyPartsFold rest (mods ||| MOD_ALT) vk
    else if part = "shift".toList then
      hotkeyPartsFold rest (mods ||| MOD_SHIFT) vk
    else if part = "meta".toList ∨ part = "win".toList then
      hotkeyPartsFold rest (mods ||| MOD_WIN) vk
    else
      let vk1 :=
        if part.head? = some 'f' ∧ 1 < part.length then
          match pyInt (part.drop 1) with
          | some n => if 1 ≤ n ∧ n ≤ 12 then some (VK_F1 + (n - 1).toNat) else vk
          | none => vk
        else vk
      let vk2 :=
        if vk1 = none then
          match VK_CODE_MAP part with
          | some v => some v
          | none => vk1
        else vk1
      hotkeyPartsFold rest mods vk2

/-- `ui_to_win32_hotkey` (`keyboard_listener.py` lines 73-123): convert a UI
hotkey string to the Win32 `(fsModifiers, vk)` pair; `none` models the
Python `(None, None)` failure return. -/
def ui_to_win32_hotkey (ui : List Char) : Option (Nat × Nat) :=
  if ui = [] ∨ ui = "#".toList then none
  else
    let parts := pySplitOn '+' ui
    match hotkeyPartsFold parts 0 none with
    | (_, none) => none
    | (mods, some vk) => some (mods, vk)

example : ui_to_win32_hotkey "Ctrl+W".toList = some (MOD_CONTROL, 0x57) := by decide
example : ui_to_win32_hotkey "F1".toList = some (0, 0x70) := by decide
example : ui_to_win32_hotkey "Ctrl+Shift+A".toList = some (0x6, 0x41) := by decide
example : ui_to_win32_hotkey "Esc".toList = none := by decide
example : ui_to_win32_hotkey "#".toList = none := by decide
example : ui_to_win32_hotkey "".toList = none := by decide
example : ui_to_win32_hotkey "Ctrl+F12".toList = some (MOD_CONTROL, 0x7B) := by decide

/-! ## Hotkey registry (`keyboard_listener.py` lines 126-519)

Python dicts (insertion-ordered, unique keys) are embedded as association
lists; the callback capability stored with each binding plays no role in the
claims and is omitted.  The Win32 side of `RegisterHotKey`/`UnregisterHotKey`
is modelled by the `os_registered` table of live `(id, modifiers, vk)`
bindings owned by this process, together with an `extTaken` oracle for
combinations claimed by other processes: `RegisterHotKey` succeeds iff the
combination is claimed by neither, and a failure sets `GetLastError` to
1409 (`ERROR_HOTKEY_ALREADY_REGISTERED`).  The worker thread processes each
enqueued command before the 1-second caller timeout, so a caller's
enqueue-and-wait is the synchronous composition of both sides. -/

/-- Lookup in an association list embedding a Python dict. -/
def alookup {α β : Type} [DecidableEq α] (k : α) : List (α × β) → Option β
  | [] => none
  | (k', v) :: rest => if k' = k then some v else alookup k rest

/-- Python `d[k] = v`: update in place if the key exists, else append. -/
def dictInsert {α β : Type} [DecidableEq α] (k : α) (v : β) :
    List (α × β) → List (α × β)
  | [] => [(k, v)]
  | (k', v') :: rest =>
    if k' = k then (k, v) :: rest else (k', v') :: dictInsert k v rest

/-- Python `del d[k]`. -/
def dictDelete {α β : Type} [DecidableEq α] (k : α) (l : List (α × β)) :
    List (α × β) :=
  l.filter (fun e => e.1 ≠ k)

/-- The per-hotkey record stored in `self._hotkeys` (callback omitted). -/
structure HotkeyInfo where
  hotkey_id : Nat
  modifiers : Nat
  vk_code : Nat
deriving DecidableEq

/-- The mutable state of the singleton `KeyboardListener`, together with the
Win32 registrations it owns (`os_registered`). `_hotkeys_by_id` stores the
UI string of each binding (its callback is omitted). -/
structure ListenerState where
  hotkeys : List (List Char × HotkeyInfo)
  hotkeys_by_id : List (Nat × List Char)
  next_hotkey_id : Nat
  os_registered : List (Nat × Nat × Nat)
deriving DecidableEq

/-- A fresh listener: empty maps, `_next_hotkey_id = 1`. -/
def ListenerState.initial : ListenerState :=
  ⟨[], [], 1, []⟩

/-- Win32 `RegisterHotKey` success condition for combination `(m, vk)`:
not claimed by another process and not among this process's live bindings. -/
def comboFree (os : List (Nat × Nat × Nat)) (m vk : Nat) : Bool :=
  os.all fun e => !(e.2.1 == m && e.2.2 == vk)

/-- Result of a `register_hotkey` call: the new state, the boolean outcome
the worker wrote into the command, and the logged `GetLastError` code. -/
structure RegResult where
  state : ListenerState
  ok : Bool
  error_code : Option Nat
deriving DecidableEq

/-- `KeyboardListener.register_hotkey` (lines 204-275) composed with the
worker-side `register` branch of `_process_pending_commands` (lines
463-491): convert the spec (reject on failure before an id is allocated),
allocate the next id, attempt the Win32 registration, and only on success
record the binding in `_hotkeys_by_id` (worker side) and `_hotkeys`
(caller side). -/
def register_hotkey (extTaken : Nat → Nat → Bool) (st : ListenerState)
    (spec : List Char) : RegResult :=
  match ui_to_win32_hotkey spec with
  | none => ⟨st, false, none⟩
  | some (m, vk) =>
    let id := st.next_hotkey_id
    let st1 := { st with next_hotkey_id := id + 1 }
    if !extTaken m vk && comboFree st1.os_registered m vk then
      let st2 := { st1 with
        os_registered := st1.os_registered ++ [(id, m, vk)],
        hotkeys_by_id := dictInsert id spec st1.hotkeys_by_id }
      ⟨{ st2 with hotkeys := dictInsert spec ⟨id, m, vk⟩ st2.hotkeys },
        true, none⟩
    else
      ⟨st1, false, some 1409⟩

/-- The worker-side `unregister` branch of `_process_pending_commands`
(lines 493-511) followed by the caller's `del self._hotkeys[...]`:
`UnregisterHotKey` succeeds iff the id is live; on success the id leaves
`_hotkeys_by_id`; the UI-keyed entry is deleted unconditionally. -/
def unregisterCmd (st : ListenerState) (key : List Char) (info : HotkeyInfo) :
    ListenerState :=
  let id := info.hotkey_id
  let osOk := st.os_registered.any fun e => e.1 == id
  { st with
    os_registered :=
      if osOk then st.os_registered.filter (fun e => e.1 ≠ id)
      else st.os_registered,
    hotkeys_by_id :=
      if osOk then dictDelete id st.hotkeys_by_id else st.hotkeys_by_id,
    hotkeys := dictDelete key st.hotkeys }

/-- `KeyboardListener.unregister_hotkey` (lines 277-356): exact-string match
first; otherwise the first registered key equal up to `lower()`; no match is
a no-op. -/
def unregister_hotkey (st : ListenerState) (spec : List Char) : ListenerState :=
  match alookup spec st.hotkeys with
  | some info => unregisterCmd st spec info
  | none =>
    match (st.hotkeys.map Prod.fst).find? (fun k => pyLower k == pyLower spec) with
    | some k =>
      match alookup k st.hotkeys with
      | some info => unregisterCmd st k info
      | none => st
    | none => st

example :
    (register_hotkey (fun _ _ => false) ListenerState.initial "Ctrl+W".toList).ok
      = true := by decide
example :
    unregister_hotkey
      (register_hotkey (fun _ _ => false) ListenerState.initial
        "Ctrl+W".toList).state "ctrl+w".toList
      = { ListenerState.initial with next_hotkey_id := 2 } := by decide
example :
    (register_hotkey (fun _ _ => true) ListenerState.initial
      "Ctrl+W".toList).error_code = some 1409 := by decide

/-! ## Tiered synthetic-input injector (`cursor_clicker_service.py` lines 31-187)

Each tier of `perform_native_click` performs OS calls that succeed or raise
depending on the environment (SendInput return values, pywin32/pynput
availability); these outcomes are the `TierOutcomes` parameter.  A Python
exception is an `Except.error`; the source wraps every tier in
`try/except`, modelled by matching on the tier's result. -/

/-- The three injection tiers, in the order the source tries them. -/
inductive Tier
  | sendInput
  | mouseEvent
  | pynput
deriving DecidableEq

/-- Whether each tier's body would run to completion (`true`) or raise
(`false`) in the current environment. -/
structure TierOutcomes where
  sendInputOk : Bool
  mouseEventOk : Bool
  pynputOk : Bool

/-- One tier's body: complete, or raise a Python exception. -/
def tierAttempt (ok : Bool) : Except Unit Unit :=
  if ok then Except.ok () else Except.error ()

/-- `perform_native_click` (lines 31-187): try SendInput, on exception fall
through to `mouse_event`, then to pynput; return `True` from the first tier
that completes; the final pynput `except` arms return `False`.  The result
is the list of tiers attempted paired with the Python return value; an
uncaught exception would be `Except.error`. -/
def perform_native_click (o : TierOutcomes) : List Tier × Except Unit Bool :=
  match tierAttempt o.sendInputOk with
  | Except.ok _ => ([Tier.sendInput], Except.ok true)
  | Except.error _ =>
    match tierAttempt o.mouseEventOk with
    | Except.ok _ => ([Tier.sendInput, Tier.mouseEvent], Except.ok true)
    | Except.error _ =>
      match tierAttempt o.pynputOk with
      | Except.ok _ =>
        ([Tier.sendInput, Tier.mouseEvent, Tier.pynput], Except.ok true)
      | Except.error _ =>
        ([Tier.sendInput, Tier.mouseEvent, Tier.pynput], Except.ok false)

/-- The number of press/release pairs performed by the winning tier's click
loop (`for i in range(times)` at lines 99-117, 145-150, 172-175): `times`
pairs when some tier completes, with `range` empty for non-positive
`times`. -/
def performedPairs (o : TierOutcomes) (times : Int) : Nat :=
  if o.sendInputOk || o.mouseEventOk || o.pynputOk then times.toNat else 0

/-! ## Continuous click engine (`cursor_clicker_service.py` lines 190-337)

The worker loop `_click_loop` is embedded with explicit fuel (it is
unbounded when `click_count = 0`); a fuel-exhausted run models a loop that
is still running.  The stop event is an oracle per iteration: `stopC i` is
`_stop_event.is_set()` (or a cleared `_is_clicking`) observed at the top of
iteration `i`, `stopW i` is the stop event interrupting iteration `i`'s
interval wait. -/

/-- The fields of `CursorClickerService` relevant to the click loop. -/
structure ClickerState where
  is_clicking : Bool
  interval_ms : Int
  button : List Char
  click_count : Int
  current_click_count : Int
deriving DecidableEq

/-- A freshly constructed `CursorClickerService` (lines 200-210). -/
def ClickerState.initial : ClickerState :=
  ⟨false, 100, "left".toList, 0, 0⟩

/-- `CursorClickerService.start_clicking` (lines 212-238): a no-op while
already clicking; otherwise store the arguments verbatim, reset the counter
and enter the clicking state (the spawned worker is run separately by
`click_loop`). -/
def start_clicking (st : ClickerState) (interval_ms : Int) (button : List Char)
    (click_count : Int) : ClickerState :=
  if st.is_clicking then st
  else
    { st with
      interval_ms := interval_ms
      button := button
      click_count := click_count
      current_click_count := 0
      is_clicking := true }

/-- Observable actions of one `_click_loop` run: an injector call per
iteration and each completed interval wait with its duration. -/
inductive ClickEvent
  | click (button : List Char)
  | wait (ms : Int)
deriving DecidableEq

/-- The `while` body of `_click_loop` (lines 268-293).  Returns the final
state, the events performed, and whether the loop exited on its own
(`false` when fuel ran out with the loop still going). -/
def clickLoopAux (stopC stopW : Nat → Bool) :
    Nat → ClickerState → Nat → ClickerState × List ClickEvent × Bool
  | 0, st, _ => (st, [], false)
  | fuel + 1, st, i =>
    if st.is_clicking && !stopC i then
      let st1 := { st with current_click_count := st.current_click_count + 1 }
      if 0 < st1.click_count ∧ st1.click_count ≤ st1.current_click_count then
        ({ st1 with is_clicking := false }, [ClickEvent.click st.button], true)
      else if stopW i then
        (st1, [ClickEvent.click st.button], true)
      else
        let r := clickLoopAux stopC stopW fuel st1 (i + 1)
        (r.1, ClickEvent.click st.button :: ClickEvent.wait st.interval_ms :: r.2.1,
          r.2.2)
    else (st, [], true)

/-- `_click_loop` (lines 262-299): run the while loop; the `finally` clause
clears `_is_clicking` whenever the loop exits. -/
def click_loop (st : ClickerState) (stopC stopW : Nat → Bool) (fuel : Nat) :
    ClickerState × List ClickEvent × Bool :=
  let r := clickLoopAux stopC stopW fuel st 0
  if r.2.2 then ({ r.1 with is_clicking := false }, r.2.1, true) else r

/-- A stop event that is never set. -/
def stopNever : Nat → Bool := fun _ => false

/-- Clicks performed in a click-loop run. -/
def clicksIn (evs : List ClickEvent) : Nat :=
  (evs.filter fun e => match e with | ClickEvent.click _ => true | _ => false).length

/-- Interval waits observed in a click-loop run. -/
def clWaits (evs : List ClickEvent) : List Int :=
  evs.filterMap fun e => match e with | ClickEvent.wait d => some d | _ => none

example :
    click_loop (start_clicking ClickerState.initial 50 "left".toList 3)
      stopNever stopNever 10
      = (⟨false, 50, "left".toList, 3, 3⟩,
         [ClickEvent.click "left".toList, ClickEvent.wait 50,
          ClickEvent.click "left".toList, ClickEvent.wait 50,
          ClickEvent.click "left".toList], true) := by decide

example :
    (click_loop (start_clicking ClickerState.initial 0 "left".toList 0)
      stopNever stopNever 3).2.2 = false := by decide

/-! ## Click-path playback (`click_path_executor_service.py`)

A path step is a Python value that is either a dict (with each schema field
possibly absent, read through `step.get(field, default)`) or some non-dict
value.  The execution loop's observable actions are pointer moves, injector
invocations (with the press/release pairs the winning tier performs, here
the normal SendInput path of lines 99-117), and the inter-step delay waits.
As in the click loop, the stop event is an oracle: `stopC i` is the
`not self._is_executing or self._stop_event.is_set()` test at the top of the
iteration for step `i`, and `stopW i` is `self._stop_event.wait(...)`
returning `True` during step `i`'s delay wait. -/

/-- A step dict with every schema field optional, as read by `step.get`. -/
structure StepDict where
  x : Option Int := none
  y : Option Int := none
  button : Option (List Char) := none
  click_count : Option Int := none
  delay : Option Int := none
  name : Option (List Char) := none
deriving DecidableEq

/-- An element of a `click_path` list: a dict, or any non-dict value (on
which `step.get` raises `AttributeError`). -/
inductive StepVal
  | dict (d : StepDict)
  | nondict
deriving DecidableEq

/-- Observable actions of `_execution_loop`. -/
inductive PathEvent
  /-- `win32api.SetCursorPos((x, y))` for a step. -/
  | move (x y : Int)
  /-- `perform_native_click(x, y, button, times=click_count)`. -/
  | call (button : List Char) (times : Int)
  /-- A press of the winning tier's press/release pair. -/
  | press (button : List Char)
  /-- The matching release. -/
  | release (button : List Char)
  /-- A completed inter-step wait of `ms` milliseconds. -/
  | interWait (ms : Int)
  /-- An inter-step wait begun and interrupted by the stop event. -/
  | interWaitStopped (ms : Int)
deriving DecidableEq

/-- The events of one injector invocation: the call, then `times`
press/release pairs (the `for i in range(times)` loop of the successful
SendInput tier, lines 99-117 of `cursor_clicker_service.py`). -/
def injectorCallEvents (button : List Char) (times : Int) : List PathEvent :=
  PathEvent.call button times ::
    (List.range times.toNat).flatMap fun _ =>
      [PathEvent.press button, PathEvent.release button]

/-- The `for step_index, step in enumerate(click_path, start=1)` loop of
`_execution_loop` (lines 148-219): per surviving step, read the fields with
their `get` defaults, move the cursor, invoke the injector, and, unless this
is the last step (`step_index < len(click_path)`), wait `delay` ms
interruptibly when positive.  A non-dict step raises on `step.get`; the
exception is caught by the handler outside the loop (line 223), ending the
run. -/
def execLoopAux (stopC stopW : Nat → Bool) (total : Nat) :
    List StepVal → Nat → List PathEvent
  | [], _ => []
  | s :: rest, idx =>
    if stopC idx then []
    else
      match s with
      | StepVal.nondict => []
      | StepVal.dict d =>
        let x := d.x.getD 0
        let y := d.y.getD 0
        let button := d.button.getD "left".toList
        let click_count := d.click_count.getD 1
        let delay_ms := d.delay.getD 0
        let evs := PathEvent.move x y :: injectorCallEvents button click_count
        if idx < total then
          if 0 < delay_ms then
            if stopW idx then evs ++ [PathEvent.interWaitStopped delay_ms]
            else
              evs ++ PathEvent.interWait delay_ms ::
                execLoopAux stopC stopW total rest (idx + 1)
          else evs ++ execLoopAux stopC stopW total rest (idx + 1)
        else evs ++ execLoopAux stopC stopW total rest (idx + 1)

/-- `_execution_loop` over a whole path (`enumerate(click_path, start=1)`),
returning the event trace and the value of `_is_executing` afterwards —
always `False`, by the `finally` clause at line 225. -/
def execution_loop (path : List StepVal) (stopC stopW : Nat → Bool) :
    List PathEvent × Bool :=
  (execLoopAux stopC stopW path.length path 1, false)

/-- The validation of `start_execution` (lines 75-86) applied to one of the
first five steps: the step must be a dict containing `x`, `y` and
`button`. -/
def validStep : StepVal → Bool
  | StepVal.dict d => d.x.isSome && d.y.isSome && d.button.isSome
  | StepVal.nondict => false

/-- `ClickPathExecutorService.start_execution` (lines 38-112): reject a
`None` path, a busy executor, an empty path, and a path whose first five
steps fail validation; otherwise start the execution thread, whose trace
(for the given stop oracles) is returned. -/
def start_execution (isExecuting : Bool) (path : Option (List StepVal))
    (stopC stopW : Nat → Bool) : Option (List PathEvent × Bool) :=
  match path with
  | none => none
  | some p =>
    if isExecuting then none
    else if p.length = 0 then none
    else if (p.take 5).all validStep then some (execution_loop p stopC stopW)
    else none

/-- Well-formedness of a step per the spec's `ClickStep` schema: a dict with
all fields of the persisted schema present, `repeat_count ≥ 1`,
`delay ≥ 0`. -/
def StepVal.wellFormed : StepVal → Prop
  | StepVal.dict d =>
    d.x.isSome ∧ d.y.isSome ∧ d.button.isSome ∧
      (∃ c, d.click_count = some c ∧ 1 ≤ c) ∧ (∃ t, d.delay = some t ∧ 0 ≤ t)
  | StepVal.nondict => False

instance : DecidablePred StepVal.wellFormed := by
  intro s
  cases s with
  | dict d => exact inferInstanceAs (Decidable (_ ∧ _))
  | nondict => exact inferInstanceAs (Decidable False)

/-- The button a step's iteration passes to the injector. -/
def StepVal.buttonE : StepVal → List Char
  | StepVal.dict d => d.button.getD "left".toList
  | StepVal.nondict => "left".toList

/-- The `times` a step's iteration passes to the injector. -/
def StepVal.clicksE : StepVal → Int
  | StepVal.dict d => d.click_count.getD 1
  | StepVal.nondict => 1

/-- The inter-step delay a step's iteration reads. -/
def StepVal.delayE : StepVal → Int
  | StepVal.dict d => d.delay.getD 0
  | StepVal.nondict => 0

/-- The `(x, y)` position a step's iteration moves to. -/
def StepVal.posE : StepVal → Int × Int
  | StepVal.dict d => (d.x.getD 0, d.y.getD 0)
  | StepVal.nondict => (0, 0)

/-- Injector invocations of a trace, in order, with their arguments. -/
def callsOf (tr : List PathEvent) : List (List Char × Int) :=
  tr.filterMap fun e => match e with
    | PathEvent.call b t => some (b, t)
    | _ => none

/-- Pointer moves of a trace, in order. -/
def movesOf (tr : List PathEvent) : List (Int × Int) :=
  tr.filterMap fun e => match e with
    | PathEvent.move x y => some (x, y)
    | _ => none

/-- Number of press events (= press/release pairs) in a trace. -/
def pressCount (tr : List PathEvent) : Nat :=
  (tr.filter fun e => match e with | PathEvent.press _ => true | _ => false).length

/-- Completed inter-step waits of a trace, in order, with durations. -/
def waitsOf (tr : List PathEvent) : List Int :=
  tr.filterMap fun e => match e with
    | PathEvent.interWait d => some d
    | _ => none

/-- The spec's two-step scenario path. -/
def scenarioPath : List StepVal :=
  [StepVal.dict { x := some 100, y := some 200, button := some "left".toList,
                  click_count := some 1, delay := some 10 },
   StepVal.dict { x := some 300, y := some 400, button := some "right".toList,
                  click_count := some 2, delay := some 0 }]

example :
    callsOf (execution_loop scenarioPath stopNever stopNever).1
      = [("left".toList, 1), ("right".toList, 2)] := by decide
example : pressCount (execution_loop scenarioPath stopNever stopNever).1 = 3 := by
  decide
example : waitsOf (execution_loop scenarioPath stopNever stopNever).1 = [10] := by
  decide

/-! ## Association-list (Python dict) lemmas -/

theorem alookup_eq_none_iff {α β : Type} [DecidableEq α] (k : α)
    (l : List (α × β)) : alookup k l = none ↔ ∀ e ∈ l, e.1 ≠ k := by
  induction l with
  | nil => simp [alookup]
  | cons e rest ih =>
    by_cases h : e.1 = k
    · simp [alookup, h]
    · simpa [alookup, h] using ih

theorem alookup_mem_keys {α β : Type} [DecidableEq α] {k : α} {v : β}
    {l : List (α × β)} (h : alookup k l = some v) : k ∈ l.map Prod.fst := by
  induction l with
  | nil => simp [alookup] at h
  | cons e rest ih =>
    by_cases he : e.1 = k
    · simp [he]
    · simp only [alookup, he, if_false] at h
      simp [ih h]

theorem alookup_dictInsert_self {α β : Type} [DecidableEq α] (k : α) (v : β)
    (l : List (α × β)) : alookup k (dictInsert k v l) = some v := by
  induction l with
  | nil => simp [dictInsert, alookup]
  | cons e rest ih =>
    by_cases h : e.1 = k
    · obtain ⟨k', v'⟩ := e
      simp only at h
      simp [dictInsert, h, alookup]
    · obtain ⟨k', v'⟩ := e
      simp only at h
      simp [dictInsert, h, alookup, ih]

theorem dictInsert_of_not_mem {α β : Type} [DecidableEq α] {k : α} (v : β)
    {l : List (α × β)} (h : alookup k l = none) :
    dictInsert k v l = l ++ [(k, v)] := by
  induction l with
  | nil => simp [dictInsert]
  | cons e rest ih =>
    rw [alookup_eq_none_iff] at h
    have he : e.1 ≠ k := h e (by simp)
    obtain ⟨k', v'⟩ := e
    simp only at he
    rw [List.cons_append]
    simp only [dictInsert, he, if_false, List.cons.injEq, true_and]
    exact ih ((alookup_eq_none_iff k rest).2 fun e hm => h e (by simp [hm]))

theorem dictDelete_of_not_mem {α β : Type} [DecidableEq α] {k : α}
    {l : List (α × β)} (h : alookup k l = none) : dictDelete k l = l := by
  rw [alookup_eq_none_iff] at h
  exact List.filter_eq_self.2 fun e hm => by simpa using h e hm

theorem alookup_dictDelete_self {α β : Type} [DecidableEq α] (k : α)
    (l : List (α × β)) : alookup k (dictDelete k l) = none := by
  rw [alookup_eq_none_iff]
  intro e hm
  have := List.of_mem_filter hm
  simpa using this

/-! ## Claims C5, C9, C10: the hotkey registry -/

/-- **C5.** For every valid hotkey spec, registering it and then
unregistering the same spec restores the registry to its pre-registration
state: the spec is absent from (indeed restored in) the hotkey map, its OS
id is absent from the id map, and the OS-level binding has been released.
The hypotheses say the spec converts, the combination is claimed by no one,
the spec is not already registered, and the next Win32 id is fresh — all
true of every reachable pre-registration state. -/
theorem register_unregister_roundtrip (ext : Nat → Nat → Bool)
    (st : ListenerState) (spec : List Char) (m vk : Nat)
    (hconv : ui_to_win32_hotkey spec = some (m, vk))
    (hext : ext m vk = false)
    (hfree : comboFree st.os_registered m vk = true)
    (hspec : alookup spec st.hotkeys = none)
    (hidOs : ∀ e ∈ st.os_registered, e.1 ≠ st.next_hotkey_id)
    (hidBy : alookup st.next_hotkey_id st.hotkeys_by_id = none) :
    (unregister_hotkey (register_hotkey ext st spec).state spec).hotkeys
        = st.hotkeys
  ∧ (unregister_hotkey (register_hotkey ext st spec).state spec).hotkeys_by_id
        = st.hotkeys_by_id
  ∧ (unregister_hotkey (register_hotkey ext st spec).state spec).os_registered
        = st.os_registered := by
  have hreg : (register_hotkey ext st spec).state =
      { st with
        next_hotkey_id := st.next_hotkey_id + 1,
        os_registered := st.os_registered ++ [(st.next_hotkey_id, m, vk)],
        hotkeys_by_id := dictInsert st.next_hotkey_id spec st.hotkeys_by_id,
        hotkeys := dictInsert spec ⟨st.next_hotkey_id, m, vk⟩ st.hotkeys } := by
    simp [register_hotkey, hconv, hext, hfree]
  rw [hreg]
  rw [unregister_hotkey]
  rw [show alookup spec
      (dictInsert spec (⟨st.next_hotkey_id, m, vk⟩ : HotkeyInfo) st.hotkeys)
      = some ⟨st.next_hotkey_id, m, vk⟩ from alookup_dictInsert_self ..]
  simp only [unregisterCmd]
  have hosAny : ((st.os_registered ++ [(st.next_hotkey_id, m, vk)]).any
      fun e => e.1 == st.next_hotkey_id) = true := by
    simp
  rw [hosAny]
  refine ⟨?_, ?_, ?_⟩
  · rw [dictInsert_of_not_mem _ hspec, dictDelete, List.filter_append]
    rw [List.filter_eq_self.2 fun e hm => by
      simpa using (alookup_eq_none_iff spec st.hotkeys).1 hspec e hm]
    simp
  · simp only [if_true]
    rw [dictInsert_of_not_mem _ hidBy, dictDelete, List.filter_append]
    rw [List.filter_eq_self.2 fun e hm => by
      simpa using (alookup_eq_none_iff _ st.hotkeys_by_id).1 hidBy e hm]
    simp
  · simp only [if_true]
    rw [List.filter_append]
    rw [List.filter_eq_self.2 fun e hm => by simpa using hidOs e hm]
    simp

/-- Witness for C5: a concrete roundtrip of `"Ctrl+W"` on a fresh listener
restores all three tables. -/
theorem register_unregister_roundtrip_witness :
    (unregister_hotkey
        (register_hotkey (fun _ _ => false) ListenerState.initial
          "Ctrl+W".toList).state "Ctrl+W".toList).hotkeys
      = ListenerState.initial.hotkeys
  ∧ (unregister_hotkey
        (register_hotkey (fun _ _ => false) ListenerState.initial
          "Ctrl+W".toList).state "Ctrl+W".toList).hotkeys_by_id
      = ListenerState.initial.hotkeys_by_id
  ∧ (unregister_hotkey
        (register_hotkey (fun _ _ => false) ListenerState.initial
          "Ctrl+W".toList).state "Ctrl+W".toList).os_registered
      = ListenerState.initial.os_registered :=
  register_unregister_roundtrip (fun _ _ => false) ListenerState.initial
    "Ctrl+W".toList MOD_CONTROL 0x57 (by decide) rfl rfl rfl
    (by intro e h; simp [ListenerState.initial] at h) rfl

/-- **C9.** When Win32 registration fails (the combination is claimed by
another process, or already live in this process), `register_hotkey` reports
the failure with error code 1409 logged and leaves all registry maps
unchanged. -/
theorem register_failure_leaves_registry (ext : Nat → Nat → Bool)
    (st : ListenerState) (spec : List Char) (m vk : Nat)
    (hconv : ui_to_win32_hotkey spec = some (m, vk))
    (hfail : ext m vk = true ∨ comboFree st.os_registered m vk = false) :
    (register_hotkey ext st spec).ok = false
  ∧ (register_hotkey ext st spec).error_code = some 1409
  ∧ (register_hotkey ext st spec).state.hotkeys = st.hotkeys
  ∧ (register_hotkey ext st spec).state.hotkeys_by_id = st.hotkeys_by_id
  ∧ (register_hotkey ext st spec).state.os_registered = st.os_registered := by
  have hcond : (!ext m vk && comboFree st.os_registered m vk) = false := by
    rcases hfail with h | h <;> simp [h]
  simp [register_hotkey, hconv, hcond]

/-- Witness for C9: registering `"Ctrl+W"` while another process owns
`Ctrl+W` fails with error 1409 and adds nothing to the maps. -/
theorem register_failure_leaves_registry_witness :
    (register_hotkey (fun _ _ => true) ListenerState.initial
        "Ctrl+W".toList).ok = false
  ∧ (register_hotkey (fun _ _ => true) ListenerState.initial
        "Ctrl+W".toList).error_code = some 1409
  ∧ (register_hotkey (fun _ _ => true) ListenerState.initial
        "Ctrl+W".toList).state.hotkeys = ListenerState.initial.hotkeys
  ∧ (register_hotkey (fun _ _ => true) ListenerState.initial
        "Ctrl+W".toList).state.hotkeys_by_id
      = ListenerState.initial.hotkeys_by_id
  ∧ (register_hotkey (fun _ _ => true) ListenerState.initial
        "Ctrl+W".toList).state.os_registered
      = ListenerState.initial.os_registered :=
  register_failure_leaves_registry (fun _ _ => true) ListenerState.initial
    "Ctrl+W".toList MOD_CONTROL 0x57 (by decide) (Or.inl rfl)

/-- **C10.** Unregistering by a string `t` equal to a registered spec `s` up
to ASCII case removes the binding registered under `s`.  The uniqueness
hypothesis — no other registered key shares `s`'s lowercase — holds in every
reachable state, because two case-variants convert to the same Win32
combination and the second `RegisterHotKey` of a live combination fails, so
the variant is never added (`case_variant_registration_fails` below). -/
theorem unregister_case_insensitive (st : ListenerState) (s t : List Char)
    (info : HotkeyInfo)
    (hs : alookup s st.hotkeys = some info)
    (hlc : pyLower t = pyLower s)
    (huniq : ∀ k ∈ st.hotkeys.map Prod.fst, pyLower k = pyLower s → k = s) :
    alookup s (unregister_hotkey st t).hotkeys = none := by
  cases hex : alookup t st.hotkeys with
  | some infoT =>
    have ht : t = s := huniq t (alookup_mem_keys hex) hlc
    subst ht
    simp only [unregister_hotkey, hex, unregisterCmd]
    exact alookup_dictDelete_self ..
  | none =>
    have hfind : ∃ k, (st.hotkeys.map Prod.fst).find?
        (fun k => pyLower k == pyLower t) = some k := by
      rcases hnone : (st.hotkeys.map Prod.fst).find?
          (fun k => pyLower k == pyLower t) with _ | k
      · exfalso
        have := List.find?_eq_none.1 hnone s (alookup_mem_keys hs)
        simp [hlc] at this
      · exact ⟨k, rfl⟩
    obtain ⟨k, hk⟩ := hfind
    have hkp : pyLower k = pyLower t := by
      have := List.find?_some hk
      simpa using this
    have hks : k = s :=
      huniq k (List.mem_of_find?_eq_some hk) (hkp.trans hlc)
    subst hks
    simp only [unregister_hotkey, hex, hk, hs, unregisterCmd]
    exact alookup_dictDelete_self ..

/-- Witness for C10: with `"Ctrl+W"` registered, `unregister_hotkey` with
`"ctrl+w"` removes it. -/
theorem unregister_case_insensitive_witness :
    alookup "Ctrl+W".toList
      (unregister_hotkey
        ⟨[("Ctrl+W".toList, ⟨1, MOD_CONTROL, 0x57⟩)],
         [(1, "Ctrl+W".toList)], 2, [(1, MOD_CONTROL, 0x57)]⟩
        "ctrl+w".toList).hotkeys = none :=
  unregister_case_insensitive
    ⟨[("Ctrl+W".toList, ⟨1, MOD_CONTROL, 0x57⟩)],
     [(1, "Ctrl+W".toList)], 2, [(1, MOD_CONTROL, 0x57)]⟩
    "Ctrl+W".toList "ctrl+w".toList ⟨1, MOD_CONTROL, 0x57⟩
    (by decide) (by decide) (by decide)

/-! ## Claim C4: the tiered injector -/

/-- **C4.** For every environment, `perform_native_click` attempts the
tiers in the fixed order SendInput, `mouse_event`, pynput — the attempted
tiers are a nonempty prefix of that order ending at the first tier that
completes — returns `True` exactly when some tier completes its clicks,
returns `False` exactly when all three fail, and never lets an exception
escape to the caller. -/
theorem injector_tier_fallback (o : TierOutcomes) :
    (∃ b, (perform_native_click o).2 = Except.ok b)
  ∧ ((perform_native_click o).2 = Except.ok true ↔
      o.sendInputOk = true ∨ o.mouseEventOk = true ∨ o.pynputOk = true)
  ∧ ((perform_native_click o).2 = Except.ok false ↔
      o.sendInputOk = false ∧ o.mouseEventOk = false ∧ o.pynputOk = false)
  ∧ (perform_native_click o).1 =
      (if o.sendInputOk then [Tier.sendInput]
       else if o.mouseEventOk then [Tier.sendInput, Tier.mouseEvent]
       else [Tier.sendInput, Tier.mouseEvent, Tier.pynput]) := by
  obtain ⟨s, m, p⟩ := o
  cases s <;> cases m <;> cases p <;>
    simp [perform_native_click, tierAttempt]

/-! ## Claims C2, C8 (clicker side): the continuous click engine -/

/-- With the stop event never set and `click_count ≤ 0`, the `while` loop of
`_click_loop` never exits on its own: every fuel bound is exhausted with the
loop still running. -/
theorem clickLoopAux_unbounded (fuel : Nat) :
    ∀ (st : ClickerState) (i : Nat), st.is_clicking = true →
      st.click_count ≤ 0 →
      (clickLoopAux stopNever stopNever fuel st i).2.2 = false := by
  induction fuel with
  | zero => intro st i _ _; rfl
  | succ n ih =>
    intro st i hclick hcount
    have hnotlim : ¬(0 < st.click_count ∧
        st.click_count ≤ st.current_click_count + 1) := by
      rintro ⟨h1, _⟩; omega
    simp only [clickLoopAux, hclick, stopNever, Bool.not_false, Bool.and_self,
      if_true, if_neg hnotlim]
    simp only [Bool.false_eq_true, if_false]
    exact ih _ (i + 1) rfl hcount

/-- With the stop event never set, `0 < click_count` and enough fuel, the
`while` loop of `_click_loop` exits on its own after exactly
`click_count - current_click_count` further clicks, having cleared
`_is_clicking`. -/
theorem clickLoopAux_reaches_count (fuel : Nat) :
    ∀ (st : ClickerState) (i : Nat), st.is_clicking = true →
      0 < st.click_count →
      st.current_click_count < st.click_count →
      (st.click_count - st.current_click_count).toNat ≤ fuel →
      (clickLoopAux stopNever stopNever fuel st i).2.2 = true
    ∧ (clickLoopAux stopNever stopNever fuel st i).1.current_click_count
        = st.click_count
    ∧ (clickLoopAux stopNever stopNever fuel st i).1.is_clicking = false
    ∧ clicksIn (clickLoopAux stopNever stopNever fuel st i).2.1
        = (st.click_count - st.current_click_count).toNat := by
  induction fuel with
  | zero =>
    intro st i _ _ hlt hfuel
    exfalso; omega
  | succ n ih =>
    intro st i hclick hpos hlt hfuel
    simp only [clickLoopAux, hclick, stopNever, Bool.not_false, Bool.and_self,
      if_true]
    by_cases hdone : 0 < st.click_count ∧
        st.click_count ≤ st.current_click_count + 1
    · have hcur : st.current_click_count + 1 = st.click_count := by omega
      rw [if_pos hdone]
      refine ⟨rfl, by simpa using hcur, rfl, ?_⟩
      have h1 : clicksIn [ClickEvent.click st.button] = 1 := by
        simp [clicksIn]
      rw [h1]
      omega
    · rw [if_neg hdone]
      simp only [Bool.false_eq_true, if_false]
      have hlt1 : st.current_click_count + 1 < st.click_count := by omega
      obtain ⟨h1, h2, h3, h4⟩ := ih
        { st with
          is_clicking := true
          current_click_count := st.current_click_count + 1 }
        (i + 1) rfl hpos hlt1
        (show (st.click_count - (st.current_click_count + 1)).toNat ≤ n by
          omega)
      refine ⟨h1, by simpa using h2, h3, ?_⟩
      have hcons : ∀ evs : List ClickEvent,
          clicksIn (ClickEvent.click st.button ::
            ClickEvent.wait st.interval_ms :: evs) = clicksIn evs + 1 := by
        intro evs; simp [clicksIn]
      rw [hcons]
      have h4x : clicksIn (clickLoopAux stopNever stopNever n
          { st with
            is_clicking := true
            current_click_count := st.current_click_count + 1 }
          (i + 1)).2.1
          = (st.click_count - (st.current_click_count + 1)).toNat := h4
      rw [h4x]
      omega

/-- **C2.** In continuous-click mode: with `total_count = 0` the click loop
never terminates on its own (any fuel is exhausted with the loop running),
while with `total_count = c > 0` and enough fuel the loop exits by itself
after exactly `c` clicks, leaving `_is_clicking` (the value `is_clicking()`
returns) `false`. -/
theorem continuous_click_termination (st0 : ClickerState) (interval : Int)
    (button : List Char) (h0 : st0.is_clicking = false) :
    (∀ fuel,
      (click_loop (start_clicking st0 interval button 0) stopNever stopNever
        fuel).2.2 = false)
  ∧ (∀ c : Int, 0 < c → ∀ fuel, c.toNat ≤ fuel →
      (click_loop (start_clicking st0 interval button c) stopNever stopNever
          fuel).2.2 = true
    ∧ clicksIn (click_loop (start_clicking st0 interval button c) stopNever
          stopNever fuel).2.1 = c.toNat
    ∧ (click_loop (start_clicking st0 interval button c) stopNever stopNever
          fuel).1.is_clicking = false) := by
  have hstart : ∀ c : Int, start_clicking st0 interval button c =
      { st0 with
        interval_ms := interval
        button := button
        click_count := c
        current_click_count := 0
        is_clicking := true } := by
    intro c; simp [start_clicking, h0]
  constructor
  · intro fuel
    rw [hstart, click_loop]
    have := clickLoopAux_unbounded fuel
      { st0 with
        interval_ms := interval
        button := button
        click_count := 0
        current_click_count := 0
        is_clicking := true } 0 rfl (by simp)
    simp only [this, if_false]
    exact this
  · intro c hc fuel hfuel
    rw [hstart, click_loop]
    obtain ⟨h1, h2, h3, h4⟩ := clickLoopAux_reaches_count fuel
      { st0 with
        interval_ms := interval
        button := button
        click_count := c
        current_click_count := 0
        is_clicking := true } 0 rfl (by simpa)
      (show (0 : Int) < c from hc)
      (show (c - 0).toNat ≤ fuel by omega)
    simp only [h1, if_true]
    refine ⟨trivial, ?_, trivial⟩
    have h4x : clicksIn (clickLoopAux stopNever stopNever fuel
        { st0 with
          interval_ms := interval
          button := button
          click_count := c
          current_click_count := 0
          is_clicking := true } 0).2.1 = (c - 0).toNat := h4
    rw [h4x]
    omega

/-- Witness for C2: from an idle clicker, `total_count = 0` is still running
after 7 iterations of fuel, and `total_count = 2` stops by itself after
exactly 2 clicks with `is_clicking` false. -/
theorem continuous_click_termination_witness :
    (click_loop (start_clicking ClickerState.initial 100 "left".toList 0)
        stopNever stopNever 7).2.2 = false
  ∧ (click_loop (start_clicking ClickerState.initial 100 "left".toList 2)
        stopNever stopNever 5).2.2 = true
  ∧ clicksIn (click_loop (start_clicking ClickerState.initial 100
        "left".toList 2) stopNever stopNever 5).2.1 = (2 : Int).toNat
  ∧ (click_loop (start_clicking ClickerState.initial 100 "left".toList 2)
        stopNever stopNever 5).1.is_clicking = false := by
  obtain ⟨ha, hb⟩ := continuous_click_termination ClickerState.initial 100
    "left".toList rfl
  obtain ⟨h1, h2, h3⟩ := hb 2 (by decide) 5 (by decide)
  exact ⟨ha 7, h1, h2, h3⟩

/-! ## Claims C1, C3, C6, C8 (path side): the path playback engine -/

/-- Whether a Python value is a dict. -/
def StepVal.isDict : StepVal → Bool
  | StepVal.dict _ => true
  | StepVal.nondict => false

/-- The events one step's loop iteration performs before the inter-step
wait: the pointer move and the injector invocation. -/
def stepEvents (s : StepVal) : List PathEvent :=
  PathEvent.move s.posE.1 s.posE.2 :: injectorCallEvents s.buttonE s.clicksE

/-- The trace `_execution_loop` produces on a dict-only path when the stop
event is never set: each step's events, with a completed wait of the step's
positive delay between consecutive steps and nothing after the last. -/
def expectedTrace : List StepVal → List PathEvent
  | [] => []
  | [s] => stepEvents s
  | s :: s' :: rest =>
    stepEvents s ++
      (if 0 < s.delayE then [PathEvent.interWait s.delayE] else []) ++
      expectedTrace (s' :: rest)

/-- One unfolding of the loop body on a dict step, for rewriting. -/
theorem execLoopAux_cons (stopC stopW : Nat → Bool) (total : Nat)
    (d : StepDict) (rest : List StepVal) (idx : Nat) :
    execLoopAux stopC stopW total (StepVal.dict d :: rest) idx
      = if stopC idx then []
        else if idx < total then
          if 0 < d.delay.getD 0 then
            if stopW idx then
              (PathEvent.move (d.x.getD 0) (d.y.getD 0) ::
                injectorCallEvents (d.button.getD "left".toList)
                  (d.click_count.getD 1)) ++
                [PathEvent.interWaitStopped (d.delay.getD 0)]
            else
              (PathEvent.move (d.x.getD 0) (d.y.getD 0) ::
                injectorCallEvents (d.button.getD "left".toList)
                  (d.click_count.getD 1)) ++
                PathEvent.interWait (d.delay.getD 0) ::
                  execLoopAux stopC stopW total rest (idx + 1)
          else
            (PathEvent.move (d.x.getD 0) (d.y.getD 0) ::
              injectorCallEvents (d.button.getD "left".toList)
                (d.click_count.getD 1)) ++
              execLoopAux stopC stopW total rest (idx + 1)
        else
          (PathEvent.move (d.x.getD 0) (d.y.getD 0) ::
            injectorCallEvents (d.button.getD "left".toList)
              (d.click_count.getD 1)) ++
            execLoopAux stopC stopW total rest (idx + 1) := by
  rfl

/-- The dict step's per-iteration events agree with `stepEvents`. -/
theorem stepEvents_dict (d : StepDict) :
    stepEvents (StepVal.dict d)
      = PathEvent.move (d.x.getD 0) (d.y.getD 0) ::
          injectorCallEvents (d.button.getD "left".toList)
            (d.click_count.getD 1) := by
  rfl

theorem execLoopAux_noStop (steps : List StepVal) :
    ∀ idx total : Nat, (∀ s ∈ steps, s.isDict = true) →
      idx + steps.length = total + 1 →
      execLoopAux stopNever stopNever total steps idx = expectedTrace steps := by
  induction steps with
  | nil => intro idx total _ _; rfl
  | cons s rest ih =>
    intro idx total hdict hinv
    obtain ⟨d, rfl⟩ : ∃ d, s = StepVal.dict d := by
      cases hs : s with
      | dict d => exact ⟨d, rfl⟩
      | nondict =>
        have := hdict s (by simp [hs])
        rw [hs] at this
        simp [StepVal.isDict] at this
    have hstop : ¬ (stopNever idx = true) := by simp [stopNever]
    cases rest with
    | nil =>
      have hlast : ¬ idx < total := by
        simp at hinv
        omega
      rw [execLoopAux_cons, if_neg hstop, if_neg hlast]
      show _ ++ execLoopAux stopNever stopNever total [] (idx + 1) = _
      rw [show execLoopAux stopNever stopNever total [] (idx + 1) = [] from rfl]
      rw [List.append_nil, expectedTrace, stepEvents_dict]
    | cons s' rest' =>
      have hmid : idx < total := by
        simp at hinv
        omega
      have hrec := ih (idx + 1) total
        (fun x hx => hdict x (by simp [hx])) (by simp at hinv ⊢; omega)
      rw [execLoopAux_cons, if_neg hstop, if_pos hmid]
      by_cases hdel : (0 : Int) < d.delay.getD 0
      · rw [if_pos hdel, if_neg hstop, hrec, expectedTrace, stepEvents_dict]
        have : StepVal.delayE (StepVal.dict d) = d.delay.getD 0 := rfl
        rw [this, if_pos hdel]
        simp
      · rw [if_neg hdel, hrec, expectedTrace, stepEvents_dict]
        have : StepVal.delayE (StepVal.dict d) = d.delay.getD 0 := rfl
        rw [this, if_neg hdel]
        simp

theorem callsOf_append (l1 l2 : List PathEvent) :
    callsOf (l1 ++ l2) = callsOf l1 ++ callsOf l2 :=
  List.filterMap_append ..

theorem movesOf_append (l1 l2 : List PathEvent) :
    movesOf (l1 ++ l2) = movesOf l1 ++ movesOf l2 :=
  List.filterMap_append ..

theorem waitsOf_append (l1 l2 : List PathEvent) :
    waitsOf (l1 ++ l2) = waitsOf l1 ++ waitsOf l2 :=
  List.filterMap_append ..

theorem pressCount_append (l1 l2 : List PathEvent) :
    pressCount (l1 ++ l2) = pressCount l1 + pressCount l2 := by
  simp [pressCount]

/-- No injector call hides among the press/release pairs of one invocation:
exactly the head `call` event remains. -/
theorem callsOf_injectorCallEvents (b : List Char) (t : Int) :
    callsOf (injectorCallEvents b t) = [(b, t)] := by
  rw [injectorCallEvents,
    show ∀ l, callsOf (PathEvent.call b t :: l) = (b, t) :: callsOf l
      from fun _ => rfl]
  have h : ∀ l : List Nat,
      callsOf (l.flatMap fun _ => [PathEvent.press b, PathEvent.release b])
        = [] := by
    intro l
    induction l with
    | nil => rfl
    | cons n rest ih => simpa [callsOf] using ih
  rw [h]

/-- Each invocation's press/release pairs number exactly `times.toNat`. -/
theorem pressCount_injectorCallEvents (b : List Char) (t : Int) :
    pressCount (injectorCallEvents b t) = t.toNat := by
  rw [injectorCallEvents,
    show ∀ l, pressCount (PathEvent.call b t :: l) = pressCount l
      from fun _ => rfl]
  have h : ∀ l : List Nat,
      pressCount (l.flatMap fun _ => [PathEvent.press b, PathEvent.release b])
        = l.length := by
    intro l
    induction l with
    | nil => rfl
    | cons n rest ih => simpa [pressCount] using ih
  rw [h, List.length_range]

/-- No pointer move hides inside an invocation's events. -/
theorem movesOf_injectorCallEvents (b : List Char) (t : Int) :
    movesOf (injectorCallEvents b t) = [] := by
  rw [injectorCallEvents,
    show ∀ l, movesOf (PathEvent.call b t :: l) = movesOf l
      from fun _ => rfl]
  have h : ∀ l : List Nat,
      movesOf (l.flatMap fun _ => [PathEvent.press b, PathEvent.release b])
        = [] := by
    intro l
    induction l with
    | nil => rfl
    | cons n rest ih => simpa [movesOf] using ih
  rw [h]

/-- No wait hides inside an invocation's events. -/
theorem waitsOf_injectorCallEvents (b : List Char) (t : Int) :
    waitsOf (injectorCallEvents b t) = [] := by
  rw [injectorCallEvents,
    show ∀ l, waitsOf (PathEvent.call b t :: l) = waitsOf l
      from fun _ => rfl]
  have h : ∀ l : List Nat,
      waitsOf (l.flatMap fun _ => [PathEvent.press b, PathEvent.release b])
        = [] := by
    intro l
    induction l with
    | nil => rfl
    | cons n rest ih => simpa [waitsOf] using ih
  rw [h]

theorem callsOf_stepEvents (s : StepVal) :
    callsOf (stepEvents s) = [(s.buttonE, s.clicksE)] := by
  rw [stepEvents,
    show ∀ l, callsOf (PathEvent.move s.posE.1 s.posE.2 :: l) = callsOf l
      from fun _ => rfl,
    callsOf_injectorCallEvents]

theorem movesOf_stepEvents (s : StepVal) :
    movesOf (stepEvents s) = [s.posE] := by
  rw [stepEvents,
    show ∀ l, movesOf (PathEvent.move s.posE.1 s.posE.2 :: l)
        = s.posE :: movesOf l
      from fun _ => rfl,
    movesOf_injectorCallEvents]

theorem pressCount_stepEvents (s : StepVal) :
    pressCount (stepEvents s) = s.clicksE.toNat := by
  rw [stepEvents,
    show ∀ l, pressCount (PathEvent.move s.posE.1 s.posE.2 :: l) = pressCount l
      from fun _ => rfl,
    pressCount_injectorCallEvents]

theorem waitsOf_stepEvents (s : StepVal) :
    waitsOf (stepEvents s) = [] := by
  rw [stepEvents,
    show ∀ l, waitsOf (PathEvent.move s.posE.1 s.posE.2 :: l) = waitsOf l
      from fun _ => rfl,
    waitsOf_injectorCallEvents]

theorem callsOf_expectedTrace (steps : List StepVal) :
    callsOf (expectedTrace steps)
      = steps.map fun s => (s.buttonE, s.clicksE) := by
  induction steps with
  | nil => rfl
  | cons s rest ih =>
    cases rest with
    | nil => simpa [expectedTrace] using callsOf_stepEvents s
    | cons s' rest' =>
      rw [expectedTrace, callsOf_append, callsOf_append, callsOf_stepEvents,
        ih]
      have h2 : callsOf
          (if 0 < s.delayE then [PathEvent.interWait s.delayE] else [])
          = [] := by
        by_cases hdel : 0 < s.delayE <;> simp [hdel, callsOf]
      rw [h2]
      simp

theorem movesOf_expectedTrace (steps : List StepVal) :
    movesOf (expectedTrace steps) = steps.map StepVal.posE := by
  induction steps with
  | nil => rfl
  | cons s rest ih =>
    cases rest with
    | nil => simpa [expectedTrace] using movesOf_stepEvents s
    | cons s' rest' =>
      rw [expectedTrace, movesOf_append, movesOf_append, movesOf_stepEvents,
        ih]
      have h2 : movesOf
          (if 0 < s.delayE then [PathEvent.interWait s.delayE] else [])
          = [] := by
        by_cases hdel : 0 < s.delayE <;> simp [hdel, movesOf]
      rw [h2]
      simp

theorem pressCount_expectedTrace (steps : List StepVal) :
    pressCount (expectedTrace steps)
      = (steps.map fun s => s.clicksE.toNat).sum := by
  induction steps with
  | nil => rfl
  | cons s rest ih =>
    cases rest with
    | nil => simpa [expectedTrace] using pressCount_stepEvents s
    | cons s' rest' =>
      rw [expectedTrace, pressCount_append, pressCount_append,
        pressCount_stepEvents, ih]
      have h2 : pressCount
          (if 0 < s.delayE then [PathEvent.interWait s.delayE] else [])
          = 0 := by
        by_cases hdel : 0 < s.delayE <;> simp [hdel, pressCount]
      rw [h2]
      simp

theorem waitsOf_expectedTrace (steps : List StepVal) :
    waitsOf (expectedTrace steps)
      = (steps.dropLast.map StepVal.delayE).filter (fun d => 0 < d) := by
  induction steps with
  | nil => rfl
  | cons s rest ih =>
    cases rest with
    | nil => simp [expectedTrace, waitsOf_stepEvents]
    | cons s' rest' =>
      rw [expectedTrace, waitsOf_append, waitsOf_append, waitsOf_stepEvents,
        ih]
      have h2 : waitsOf
          (if 0 < s.delayE then [PathEvent.interWait s.delayE] else [])
          = if 0 < s.delayE then [s.delayE] else [] := by
        by_cases hdel : 0 < s.delayE <;> simp [hdel, waitsOf]
      rw [h2]
      by_cases hdel : 0 < s.delayE <;>
        simp [hdel, List.dropLast, List.filter]

/-- **C1.** For a path of well-formed steps run by `_execution_loop` with no
stop request, the injector is invoked once per step, in step order, with
each step's button and `click_count`; the total number of press/release
pairs is the sum of the steps' `click_count` values; and the completed
inter-step delay waits are exactly the positive delays of all steps but the
last, in order — none after the last step. -/
theorem path_playback_per_step (path : List StepVal)
    (hwf : ∀ s ∈ path, s.wellFormed) :
    callsOf (execution_loop path stopNever stopNever).1
        = path.map (fun s => (s.buttonE, s.clicksE))
  ∧ pressCount (execution_loop path stopNever stopNever).1
        = (path.map fun s => s.clicksE.toNat).sum
  ∧ waitsOf (execution_loop path stopNever stopNever).1
        = (path.dropLast.map StepVal.delayE).filter (fun d => 0 < d) := by
  have hdict : ∀ s ∈ path, s.isDict = true := by
    intro s hs
    have := hwf s hs
    cases s with
    | dict d => rfl
    | nondict => cases this
  have htr : (execution_loop path stopNever stopNever).1
      = expectedTrace path :=
    execLoopAux_noStop path 1 path.length hdict (by omega)
  rw [htr, callsOf_expectedTrace, pressCount_expectedTrace,
    waitsOf_expectedTrace]
  exact ⟨rfl, rfl, rfl⟩

/-- Witness for C1: the spec's scenario path produces exactly the calls
`(left, 1), (right, 2)` in order, 3 press/release pairs, and a single wait
of 10 ms between the steps. -/
theorem path_playback_per_step_witness :
    (∀ s ∈ scenarioPath, s.wellFormed)
  ∧ callsOf (execution_loop scenarioPath stopNever stopNever).1
      = [("left".toList, 1), ("right".toList, 2)]
  ∧ pressCount (execution_loop scenarioPath stopNever stopNever).1 = 3
  ∧ waitsOf (execution_loop scenarioPath stopNever stopNever).1 = [10] := by
  obtain ⟨h1, h2, h3⟩ := path_playback_per_step scenarioPath (by decide)
  exact ⟨by decide, h1.trans (by decide), h2.trans (by decide),
    h3.trans (by decide)⟩

/-- The trace `_execution_loop` produces when the stop event is set while
waiting out the delay that follows the last element of `pre ++ [sk]`: all
earlier steps run in full, `sk`'s wait is begun and interrupted, nothing
follows. -/
def expectedStopTrace : List StepVal → StepVal → List PathEvent
  | [], sk => stepEvents sk ++ [PathEvent.interWaitStopped sk.delayE]
  | s :: rest, sk =>
    stepEvents s ++
      (if 0 < s.delayE then [PathEvent.interWait s.delayE] else []) ++
      expectedStopTrace rest sk

theorem execLoopAux_stopAtWait (k total : Nat) (sk : StepVal)
    (post : List StepVal) :
    ∀ (pre : List StepVal) (idx : Nat),
      (∀ s ∈ pre, s.isDict = true) → sk.isDict = true →
      idx + pre.length = k → k < total → 0 < sk.delayE →
      execLoopAux (fun i => decide (k < i)) (fun i => decide (k ≤ i)) total
          (pre ++ sk :: post) idx
        = expectedStopTrace pre sk := by
  intro pre
  induction pre with
  | nil =>
    intro idx hpre hsk hk hklt hdel
    simp only [List.length_nil, Nat.add_zero] at hk
    subst hk
    obtain ⟨d, rfl⟩ : ∃ d, sk = StepVal.dict d := by
      cases hs : sk with
      | dict d => exact ⟨d, rfl⟩
      | nondict => rw [hs] at hsk; cases hsk
    rw [List.nil_append, execLoopAux_cons,
      if_neg (by simp), if_pos hklt, if_pos (by exact hdel),
      if_pos (by simp)]
    rw [expectedStopTrace, stepEvents_dict]
    rfl
  | cons s pre' ih =>
    intro idx hpre hsk hk hklt hdel
    obtain ⟨d, rfl⟩ : ∃ d, s = StepVal.dict d := by
      cases hs : s with
      | dict d => exact ⟨d, rfl⟩
      | nondict =>
        have := hpre s (by simp [hs])
        rw [hs] at this
        cases this
    have hidxk : idx < k := by
      simp at hk
      omega
    rw [List.cons_append, execLoopAux_cons,
      if_neg (show ¬(decide (k < idx) = true) by simp; omega),
      if_pos (show idx < total by omega)]
    have hrec := ih (idx + 1) (fun x hx => hpre x (by simp [hx])) hsk
      (by simp at hk ⊢; omega) hklt hdel
    by_cases hd : (0 : Int) < d.delay.getD 0
    · rw [if_pos hd,
        if_neg (show ¬(decide (k ≤ idx) = true) by simp; omega), hrec]
      rw [expectedStopTrace, stepEvents_dict]
      have : StepVal.delayE (StepVal.dict d) = d.delay.getD 0 := rfl
      rw [this, if_pos hd]
      simp
    · rw [if_neg hd, hrec]
      rw [expectedStopTrace, stepEvents_dict]
      have : StepVal.delayE (StepVal.dict d) = d.delay.getD 0 := rfl
      rw [this, if_neg hd]
      simp

theorem callsOf_expectedStopTrace (pre : List StepVal) (sk : StepVal) :
    callsOf (expectedStopTrace pre sk)
      = (pre ++ [sk]).map fun s => (s.buttonE, s.clicksE) := by
  induction pre with
  | nil =>
    rw [expectedStopTrace, callsOf_append, callsOf_stepEvents]
    rfl
  | cons s pre' ih =>
    rw [expectedStopTrace, callsOf_append, callsOf_append,
      callsOf_stepEvents, ih]
    have h2 : callsOf
        (if 0 < s.delayE then [PathEvent.interWait s.delayE] else [])
        = [] := by
      by_cases hdel : 0 < s.delayE <;> simp [hdel, callsOf]
    rw [h2]
    simp

theorem movesOf_expectedStopTrace (pre : List StepVal) (sk : StepVal) :
    movesOf (expectedStopTrace pre sk) = (pre ++ [sk]).map StepVal.posE := by
  induction pre with
  | nil =>
    rw [expectedStopTrace, movesOf_append, movesOf_stepEvents]
    rfl
  | cons s pre' ih =>
    rw [expectedStopTrace, movesOf_append, movesOf_append,
      movesOf_stepEvents, ih]
    have h2 : movesOf
        (if 0 < s.delayE then [PathEvent.interWait s.delayE] else [])
        = [] := by
      by_cases hdel : 0 < s.delayE <;> simp [hdel, movesOf]
    rw [h2]
    simp

/-- **C3.** If the stop event is set during the delay wait that follows step
`k = pre.length + 1` of a path that continues with `snext :: post`, then no
later step runs at all: the pointer moves and the injector calls of the run
are exactly those of steps `1..k`, and the run ends in the non-executing
state. -/
theorem stop_during_wait_aborts_rest (pre : List StepVal) (sk snext : StepVal)
    (post : List StepVal)
    (hwf : ∀ s ∈ pre ++ sk :: snext :: post, s.wellFormed)
    (hdel : 0 < sk.delayE) :
    callsOf (execution_loop (pre ++ sk :: snext :: post)
        (fun i => decide (pre.length + 1 < i))
        (fun i => decide (pre.length + 1 ≤ i))).1
      = ((pre ++ sk :: snext :: post).take (pre.length + 1)).map
          (fun s => (s.buttonE, s.clicksE))
  ∧ movesOf (execution_loop (pre ++ sk :: snext :: post)
        (fun i => decide (pre.length + 1 < i))
        (fun i => decide (pre.length + 1 ≤ i))).1
      = ((pre ++ sk :: snext :: post).take (pre.length + 1)).map StepVal.posE
  ∧ (execution_loop (pre ++ sk :: snext :: post)
        (fun i => decide (pre.length + 1 < i))
        (fun i => decide (pre.length + 1 ≤ i))).2 = false := by
  have hdict : ∀ s ∈ pre ++ sk :: snext :: post, s.isDict = true := by
    intro s hs
    have := hwf s hs
    cases s with
    | dict d => rfl
    | nondict => cases this
  have htake : (pre ++ sk :: snext :: post).take (pre.length + 1)
      = pre ++ [sk] := by
    rw [List.take_append_eq_append_take, List.take_of_length_le (by omega),
      show pre.length + 1 - pre.length = 1 by omega]
    rfl
  have htr : (execution_loop (pre ++ sk :: snext :: post)
      (fun i => decide (pre.length + 1 < i))
      (fun i => decide (pre.length + 1 ≤ i))).1
      = expectedStopTrace pre sk := by
    refine execLoopAux_stopAtWait (pre.length + 1)
      (pre ++ sk :: snext :: post).length sk (snext :: post) pre 1
      (fun s hs => hdict s (by simp [hs])) (hdict sk (by simp)) (by omega)
      (by simp only [List.length_append, List.length_cons]; omega) hdel
  rw [htr, htake, callsOf_expectedStopTrace, movesOf_expectedStopTrace]
  exact ⟨rfl, rfl, rfl⟩

/-- Witness for C3: on the spec's two-step path, a stop arriving during the
wait after step 1 yields only step 1's call and move, and leaves the
executor non-executing. -/
theorem stop_during_wait_aborts_rest_witness :
    callsOf (execution_loop scenarioPath
        (fun i => decide (1 < i)) (fun i => decide (1 ≤ i))).1
      = [("left".toList, 1)]
  ∧ movesOf (execution_loop scenarioPath
        (fun i => decide (1 < i)) (fun i => decide (1 ≤ i))).1
      = [(100, 200)]
  ∧ (execution_loop scenarioPath
        (fun i => decide (1 < i)) (fun i => decide (1 ≤ i))).2 = false := by
  obtain ⟨h1, h2, h3⟩ := stop_during_wait_aborts_rest []
    (StepVal.dict { x := some 100, y := some 200, button := some "left".toList,
                    click_count := some 1, delay := some 10 })
    (StepVal.dict { x := some 300, y := some 400, button := some "right".toList,
                    click_count := some 2, delay := some 0 })
    [] (by decide) (by decide)
  exact ⟨h1.trans (by decide), h2.trans (by decide), h3⟩

/-- A step dict missing the required field `x`. -/
def malformedStep : StepVal :=
  StepVal.dict { y := some 5, button := some "left".toList }

/-- A fully well-formed step. -/
def okStep : StepVal :=
  StepVal.dict { x := some 1, y := some 2, button := some "left".toList,
                 click_count := some 1, delay := some 0 }

/-- **C6 counterexample.** A path whose first step is malformed (missing
`x`) and whose second step is well-formed is rejected wholesale by
`start_execution` — the well-formed remaining step is never executed,
contradicting the claim that a malformed step never aborts the remaining
path. -/
theorem malformed_step_aborts_whole_path :
    start_execution false (some [malformedStep, okStep]) stopNever stopNever
        = none
  ∧ ¬ malformedStep.wellFormed
  ∧ okStep.wellFormed := by
  refine ⟨by decide, by decide, by decide⟩

/-- **C6 amended.** A step failing `start_execution`'s validation (non-dict,
or missing `x`/`y`/`button`) among the first five steps makes
`start_execution` reject the entire path before anything executes; by
contrast, dict steps (whether or not fields are missing — missing fields are
defaulted via `step.get`) never abort the remaining path: when validation
passes, every step of the path yields exactly one injector call. -/
theorem malformed_step_handling (path : List StepVal) :
    (∀ s ∈ path.take 5, validStep s = false →
       start_execution false (some path) stopNever stopNever = none)
  ∧ ((∀ s ∈ path, s.isDict = true) → (path.take 5).all validStep = true →
       path ≠ [] →
       start_execution false (some path) stopNever stopNever
           = some (execution_loop path stopNever stopNever)
     ∧ callsOf (execution_loop path stopNever stopNever).1
           = path.map fun s => (s.buttonE, s.clicksE)) := by
  constructor
  · intro s hmem hbad
    have hne : path.length ≠ 0 := by
      intro h
      rw [List.eq_nil_of_length_eq_zero h] at hmem
      simp at hmem
    have hall : (path.take 5).all validStep = false := by
      rw [List.all_eq_false]
      exact ⟨s, hmem, by simp [hbad]⟩
    simp [start_execution, hne, hall]
  · intro hdict hall hne
    have hlen : path.length ≠ 0 := fun h => hne (List.eq_nil_of_length_eq_zero h)
    constructor
    · simp [start_execution, hlen, hall]
    · have htr : (execution_loop path stopNever stopNever).1
          = expectedTrace path :=
        execLoopAux_noStop path 1 path.length hdict (by omega)
      rw [htr, callsOf_expectedTrace]

/-- Witness for the amended C6: the malformed-in-first-five path is refused
outright, while a path containing a dict step with every optional field
missing is executed in full, the step defaulting to one left click. -/
theorem malformed_step_handling_witness :
    start_execution false (some [malformedStep, okStep]) stopNever stopNever
        = none
  ∧ start_execution false
        (some [okStep, StepVal.dict { x := some 7, y := some 8,
                                      button := some "right".toList }])
        stopNever stopNever
      = some (execution_loop
          [okStep, StepVal.dict { x := some 7, y := some 8,
                                  button := some "right".toList }]
          stopNever stopNever)
  ∧ callsOf (execution_loop
        [okStep, StepVal.dict { x := some 7, y := some 8,
                                button := some "right".toList }]
        stopNever stopNever).1
      = [("left".toList, 1), ("right".toList, 1)] := by
  obtain ⟨ha, hb⟩ := malformed_step_handling [malformedStep, okStep]
  obtain ⟨hc, hd⟩ := (malformed_step_handling
    [okStep, StepVal.dict { x := some 7, y := some 8,
                            button := some "right".toList }]).2
    (by decide) (by decide) (by decide)
  exact ⟨ha malformedStep (by decide) (by decide), hc, hd.trans (by decide)⟩

/-- **C8 counterexample.** `start_clicking(0, left, 0)` stores
`interval_ms = 0` unchanged, the click loop's interval waits are then 0 ms
(below 1), and a path step with `click_count = 0` reaches the injector as
`times = 0` (below 1) — nothing is rejected or clamped at the boundary. -/
theorem no_clamping_counterexample :
    (start_clicking ClickerState.initial 0 "left".toList 0).interval_ms = 0
  ∧ clWaits (click_loop (start_clicking ClickerState.initial 0 "left".toList 0)
        stopNever stopNever 2).2.1 = [0, 0]
  ∧ callsOf (execution_loop
        [StepVal.dict { x := some 1, y := some 2,
                        button := some "left".toList, click_count := some 0,
                        delay := some 0 }]
        stopNever stopNever).1
      = [("left".toList, 0)] := by
  refine ⟨by decide, by decide, by decide⟩

/-- Every interval wait performed by the click loop equals the state's
stored `interval_ms`, whatever its value. -/
theorem clickLoopAux_waits_verbatim (stopC stopW : Nat → Bool) (fuel : Nat) :
    ∀ (st : ClickerState) (i : Nat),
      ∀ w ∈ clWaits (clickLoopAux stopC stopW fuel st i).2.1,
        w = st.interval_ms := by
  induction fuel with
  | zero => intro st i w hw; simp [clickLoopAux, clWaits] at hw
  | succ n ih =>
    intro st i w hw
    rw [clickLoopAux] at hw
    by_cases htop : (st.is_clicking && !stopC i) = true
    · rw [if_pos htop] at hw
      by_cases hdone : 0 < st.click_count ∧
          st.click_count ≤ st.current_click_count + 1
      · rw [if_pos hdone] at hw
        simp [clWaits] at hw
      · rw [if_neg hdone] at hw
        by_cases hstop : stopW i = true
        · rw [if_pos hstop] at hw
          simp [clWaits] at hw
        · rw [if_neg hstop] at hw
          simp only [clWaits, List.filterMap_cons] at hw
          simp only [List.mem_cons] at hw
          rcases hw with h | h
          · exact h
          · exact ih
              { st with current_click_count := st.current_click_count + 1 }
              (i + 1) w h
    · rw [if_neg htop] at hw
      simp [clWaits] at hw

/-- **C8 amended.** No rejection or clamping happens at either boundary:
`start_clicking` stores `interval_ms` and `click_count` verbatim (so the
loop's waits are exactly the given interval, including 0), and path
execution passes each dict step's `click_count` verbatim to the injector
(0 producing an injector call that performs zero press/release pairs). -/
theorem no_boundary_clamping (st : ClickerState) (interval : Int)
    (button : List Char) (c : Int) (h : st.is_clicking = false) :
    (start_clicking st interval button c).interval_ms = interval
  ∧ (start_clicking st interval button c).click_count = c
  ∧ (∀ stopC stopW fuel,
      ∀ w ∈ clWaits (click_loop (start_clicking st interval button c)
          stopC stopW fuel).2.1, w = interval)
  ∧ ∀ d : StepDict,
      callsOf (execution_loop [StepVal.dict d] stopNever stopNever).1
        = [(d.button.getD "left".toList, d.click_count.getD 1)] := by
  have hstart : start_clicking st interval button c =
      { st with
        interval_ms := interval
        button := button
        click_count := c
        current_click_count := 0
        is_clicking := true } := by
    simp [start_clicking, h]
  refine ⟨by rw [hstart], by rw [hstart], ?_, ?_⟩
  · intro stopC stopW fuel w hw
    rw [click_loop] at hw
    by_cases hdone : (clickLoopAux stopC stopW fuel
        (start_clicking st interval button c) 0).2.2 = true
    · rw [if_pos hdone] at hw
      have := clickLoopAux_waits_verbatim stopC stopW fuel
        (start_clicking st interval button c) 0 w hw
      rw [this, hstart]
    · rw [if_neg hdone] at hw
      have := clickLoopAux_waits_verbatim stopC stopW fuel
        (start_clicking st interval button c) 0 w hw
      rw [this, hstart]
  · intro d
    have htr : (execution_loop [StepVal.dict d] stopNever stopNever).1
        = expectedTrace [StepVal.dict d] :=
      execLoopAux_noStop [StepVal.dict d] 1 1 (by simp [StepVal.isDict])
        (by simp)
    rw [htr, callsOf_expectedTrace]
    rfl

/-- Witness for the amended C8: interval 0 and count 0 flow through
verbatim. -/
theorem no_boundary_clamping_witness :
    (start_clicking ClickerState.initial 0 "left".toList 0).interval_ms = 0
  ∧ (start_clicking ClickerState.initial 0 "left".toList 0).click_count = 0
  ∧ (∀ w ∈ clWaits (click_loop
        (start_clicking ClickerState.initial 0 "left".toList 0)
        stopNever stopNever 2).2.1, w = 0)
  ∧ callsOf (execution_loop
        [StepVal.dict { x := some 1, y := some 2,
                        button := some "left".toList, click_count := some 0,
                        delay := some 0 }]
        stopNever stopNever).1
      = [("left".toList, 0)] := by
  obtain ⟨h1, h2, h3, h4⟩ := no_boundary_clamping ClickerState.initial 0
    "left".toList 0 rfl
  refine ⟨h1, h2, h3 stopNever stopNever 2, (h4 _).trans (by decide)⟩

/-! ## Claim C7: the hotkey spec grammar -/

/-- `"+"`-joining of spec parts, the inverse of `spec.split("+")`. -/
def joinPlus : List (List Char) → List Char
  | [] => []
  | [p] => p
  | p :: q :: rest => p ++ '+' :: joinPlus (q :: rest)

theorem pySplitOn_no_sep (sep : Char) :
    ∀ s : List Char, (∀ c ∈ s, c ≠ sep) → pySplitOn sep s = [s] := by
  intro s
  induction s with
  | nil => intro _; rfl
  | cons c rest ih =>
    intro h
    have hc : ¬ (c = sep) := h c (by simp)
    simp only [pySplitOn, ih (fun x hx => h x (by simp [hx])), if_neg hc]

theorem pySplitOn_append (sep : Char) :
    ∀ p rest : List Char, (∀ c ∈ p, c ≠ sep) →
      pySplitOn sep (p ++ sep :: rest) = p :: pySplitOn sep rest := by
  intro p
  induction p with
  | nil =>
    intro rest _
    simp [pySplitOn]
  | cons c p' ih =>
    intro rest h
    have hc : ¬ (c = sep) := h c (by simp)
    simp only [List.cons_append, pySplitOn, List.append_eq,
      ih rest (fun x hx => h x (by simp [hx])), if_neg hc]

theorem joinPlus_split :
    ∀ parts : List (List Char), parts ≠ [] →
      (∀ p ∈ parts, ∀ c ∈ p, c ≠ '+') →
      pySplitOn '+' (joinPlus parts) = parts := by
  intro parts
  induction parts with
  | nil => intro h _; cases h rfl
  | cons p rest ih =>
    intro _ hno
    cases rest with
    | nil => exact pySplitOn_no_sep '+' p (hno p (by simp))
    | cons q rest' =>
      rw [joinPlus, pySplitOn_append '+' p _ (hno p (by simp)),
        ih (by simp) (fun x hx => hno x (by simp [hx]))]

/-- The four modifier names of the spec grammar. -/
def isClaimMod (m : List Char) : Prop :=
  m = "Ctrl".toList ∨ m = "Alt".toList ∨ m = "Shift".toList ∨
    m = "Meta".toList

instance : DecidablePred isClaimMod := fun m => by
  unfold isClaimMod
  infer_instance

/-- The key table of the claim restricted to what `VK_CODE_MAP` actually
contains: `A`–`Z`, `0`–`9` and `F1`–`F12`. -/
def claimKeys : List (List Char) :=
  ["A".toList, "B".toList, "C".toList, "D".toList, "E".toList, "F".toList,
   "G".toList, "H".toList, "I".toList, "J".toList, "K".toList, "L".toList,
   "M".toList, "N".toList, "O".toList, "P".toList, "Q".toList, "R".toList,
   "S".toList, "T".toList, "U".toList, "V".toList, "W".toList, "X".toList,
   "Y".toList, "Z".toList,
   "0".toList, "1".toList, "2".toList, "3".toList, "4".toList, "5".toList,
   "6".toList, "7".toList, "8".toList, "9".toList,
   "F1".toList, "F2".toList, "F3".toList, "F4".toList, "F5".toList,
   "F6".toList, "F7".toList, "F8".toList, "F9".toList, "F10".toList,
   "F11".toList, "F12".toList]

/-- A modifier part folds into the accumulated modifier mask and leaves the
key code untouched. -/
theorem hotkeyPartsFold_mod (m : List Char) (hm : isClaimMod m) :
    ∀ (rest : List (List Char)) (acc : Nat) (vk : Option Nat),
      ∃ b : Nat, hotkeyPartsFold (m :: rest) acc vk
        = hotkeyPartsFold rest (acc ||| b) vk := by
  rcases hm with rfl | rfl | rfl | rfl
  · exact fun rest acc vk => ⟨MOD_CONTROL, rfl⟩
  · exact fun rest acc vk => ⟨MOD_ALT, rfl⟩
  · exact fun rest acc vk => ⟨MOD_SHIFT, rfl⟩
  · exact fun rest acc vk => ⟨MOD_WIN, rfl⟩

/-- Every key of the grammar table folds to a defined virtual-key code. -/
theorem hotkeyPartsFold_key (k : List Char) (hk : k ∈ claimKeys) :
    ∀ acc : Nat, ∃ v : Nat, hotkeyPartsFold [k] acc none = (acc, some v) := by
  fin_cases hk <;> exact fun acc => ⟨_, rfl⟩

theorem hotkeyPartsFold_grammar (mods : List (List Char)) (k : List Char)
    (hm : ∀ m ∈ mods, isClaimMod m) (hk : k ∈ claimKeys) :
    ∀ acc : Nat, ∃ mv v : Nat,
      hotkeyPartsFold (mods ++ [k]) acc none = (mv, some v) := by
  induction mods with
  | nil =>
    intro acc
    obtain ⟨v, hv⟩ := hotkeyPartsFold_key k hk acc
    exact ⟨acc, v, hv⟩
  | cons m mods' ih =>
    intro acc
    obtain ⟨b, hb⟩ := hotkeyPartsFold_mod m (hm m (by simp)) (mods' ++ [k])
      acc none
    obtain ⟨mv, v, hv⟩ := ih (fun x hx => hm x (by simp [hx])) (acc ||| b)
    exact ⟨mv, v, by rw [List.cons_append, hb, hv]⟩

theorem isClaimMod_no_plus (m : List Char) (hm : isClaimMod m) :
    ∀ c ∈ m, c ≠ '+' := by
  rcases hm with rfl | rfl | rfl | rfl <;> decide

theorem claimKeys_no_plus (k : List Char) (hk : k ∈ claimKeys) :
    ∀ c ∈ k, c ≠ '+' := by
  fin_cases hk <;> decide

theorem joinPlus_grammar_ne (mods : List (List Char)) (k : List Char)
    (hm : ∀ m ∈ mods, isClaimMod m) (hk : k ∈ claimKeys) :
    joinPlus (mods ++ [k]) ≠ [] ∧ joinPlus (mods ++ [k]) ≠ "#".toList := by
  cases mods with
  | nil =>
    simp only [List.nil_append]
    fin_cases hk <;> exact ⟨by decide, by decide⟩
  | cons m mods' =>
    obtain ⟨q, rest', heq⟩ : ∃ q rest', mods' ++ [k] = q :: rest' := by
      cases hmk : mods' ++ [k] with
      | nil => exact absurd hmk (by simp)
      | cons q rest' => exact ⟨q, rest', rfl⟩
    rw [List.cons_append, heq, joinPlus]
    rcases hm m (by simp) with rfl | rfl | rfl | rfl <;>
      exact ⟨by simp, by simp [List.append_eq_cons_iff]⟩

/-- **C7 counterexample.** The named keys of the claimed grammar are not in
`VK_CODE_MAP`: `"Esc"` (and, e.g., `"Ctrl+Enter"`) fails conversion, and
`register_hotkey` rejects it as unconvertible (no error code, no state
change) instead of accepting it. -/
theorem named_key_not_convertible :
    ui_to_win32_hotkey "Esc".toList = none
  ∧ (register_hotkey (fun _ _ => false) ListenerState.initial
        "Esc".toList).ok = false
  ∧ (register_hotkey (fun _ _ => false) ListenerState.initial
        "Esc".toList).error_code = none
  ∧ (register_hotkey (fun _ _ => false) ListenerState.initial
        "Esc".toList).state = ListenerState.initial
  ∧ ui_to_win32_hotkey "Ctrl+Enter".toList = none := by
  refine ⟨by decide, by decide, by decide, by decide, by decide⟩

/-- **C7 amended.** Every spec of the grammar `[Modifier+]*Key` with
modifiers among Ctrl, Alt, Shift, Meta and Key restricted to `A`–`Z`,
`0`–`9`, `F1`–`F12` (the named keys Esc, Enter, Space, Tab, Backspace,
Delete, Insert, Home, End, PageUp, PageDown and arrows are *not* supported,
see the counterexample) converts to a defined Win32 pair, and
`register_hotkey` accepts it: with the combination unclaimed it registers
successfully. -/
theorem hotkey_grammar_converts (mods : List (List Char)) (k : List Char)
    (hm : ∀ m ∈ mods, isClaimMod m) (hk : k ∈ claimKeys) :
    (∃ mv v : Nat,
      ui_to_win32_hotkey (joinPlus (mods ++ [k])) = some (mv, v))
  ∧ (register_hotkey (fun _ _ => false) ListenerState.initial
        (joinPlus (mods ++ [k]))).ok = true := by
  obtain ⟨hne, hsharp⟩ := joinPlus_grammar_ne mods k hm hk
  have hsplit : pySplitOn '+' (joinPlus (mods ++ [k])) = mods ++ [k] := by
    refine joinPlus_split (mods ++ [k]) (by simp) ?_
    intro p hp
    rcases List.mem_append.1 hp with hmem | hmem
    · exact isClaimMod_no_plus p (hm p hmem)
    · rw [List.mem_singleton.1 hmem]
      exact claimKeys_no_plus k hk
  obtain ⟨mv, v, hfold⟩ := hotkeyPartsFold_grammar mods k hm hk 0
  have hcond : ¬ (joinPlus (mods ++ [k]) = [] ∨
      joinPlus (mods ++ [k]) = "#".toList) := by
    rintro (h | h)
    · exact hne h
    · exact hsharp h
  have hconv : ui_to_win32_hotkey (joinPlus (mods ++ [k])) = some (mv, v) := by
    simp only [ui_to_win32_hotkey]
    rw [if_neg hcond, hsplit, hfold]
  refine ⟨⟨mv, v, hconv⟩, ?_⟩
  rw [register_hotkey, hconv]
  rfl

/-- Witness for the amended C7: `"Ctrl+Shift+A"` converts and registers. -/
theorem hotkey_grammar_converts_witness :
    (∃ mv v : Nat, ui_to_win32_hotkey "Ctrl+Shift+A".toList = some (mv, v))
  ∧ (register_hotkey (fun _ _ => false) ListenerState.initial
        "Ctrl+Shift+A".toList).ok = true := by
  obtain ⟨h1, h2⟩ := hotkey_grammar_converts
    ["Ctrl".toList, "Shift".toList] "A".toList
    (by intro m hm; fin_cases hm <;> decide) (by decide)
  have hq : joinPlus (["Ctrl".toList, "Shift".toList] ++ ["A".toList])
      = "Ctrl+Shift+A".toList := by decide
  rw [hq] at h1 h2
  exact ⟨h1, h2⟩

/-! ## Case-insensitivity of the conversion

`ui_to_win32_hotkey` lower-cases every part, so two specs equal up to ASCII
case convert to the same Win32 combination.  Consequently a case-variant of
a live registered spec can never be registered alongside it — the fact that
justifies the uniqueness hypothesis of `unregister_case_insensitive`. -/

theorem pyLowerChar_toNat_of_upper {c : Char} (h : 'A' ≤ c ∧ c ≤ 'Z') :
    (pyLowerChar c).toNat = c.toNat + 32 := by
  have h1 : 65 ≤ c.toNat := h.1
  have h2 : c.toNat ≤ 90 := h.2
  have hv : Nat.isValidChar (c.toNat + 32) := Or.inl (by omega)
  rw [pyLowerChar, if_pos h, Char.ofNat, dif_pos hv]
  rfl

theorem pyLowerChar_eq_self_or_upper (c : Char) :
    pyLowerChar c = c ∨ ('A' ≤ c ∧ c ≤ 'Z') := by
  by_cases h : 'A' ≤ c ∧ c ≤ 'Z'
  · exact Or.inr h
  · exact Or.inl (by rw [pyLowerChar, if_neg h])

/-- `lower()` fixes every character below `'a'`; in particular separators
(`'+'`), the sentinel `'#'` and whitespace are produced only from
themselves. -/
theorem pyLowerChar_eq_low {c d : Char} (hd : d.toNat < 97)
    (h : pyLowerChar c = d) : c = d := by
  rcases pyLowerChar_eq_self_or_upper c with h' | h'
  · rw [← h', h]
  · exfalso
    have ht := pyLowerChar_toNat_of_upper h'
    rw [h] at ht
    have h1 : 65 ≤ c.toNat := h'.1
    omega

theorem pyLowerChar_plus_iff (c : Char) : pyLowerChar c = '+' ↔ c = '+' := by
  constructor
  · exact pyLowerChar_eq_low (by decide)
  · intro h; subst h; rfl

theorem pySpace_lt (x : Char) (h1 : 65 ≤ x.toNat) (h2 : x.toNat ≤ 122) :
    pySpace x = false := by
  cases hx : pySpace x
  · rfl
  · exfalso
    simp only [pySpace, Bool.or_eq_true, decide_eq_true_eq] at hx
    rcases hx with ((((h | h) | h) | h) | h) | h <;> subst h <;>
      exact absurd h1 (by decide)

theorem pySpace_pyLowerChar (c : Char) :
    pySpace (pyLowerChar c) = pySpace c := by
  rcases pyLowerChar_eq_self_or_upper c with h | h
  · rw [h]
  · have ht := pyLowerChar_toNat_of_upper h
    have h1 : 65 ≤ c.toNat := h.1
    have h2 : c.toNat ≤ 90 := h.2
    rw [pySpace_lt c h1 (by omega), pySpace_lt (pyLowerChar c) (by omega)
      (by omega)]

theorem pyLowerChar_idem (c : Char) :
    pyLowerChar (pyLowerChar c) = pyLowerChar c := by
  rcases pyLowerChar_eq_self_or_upper c with h | h
  · simp [h]
  · have ht := pyLowerChar_toNat_of_upper h
    have h1 : 65 ≤ c.toNat := h.1
    have h2 : c.toNat ≤ 90 := h.2
    rw [pyLowerChar, if_neg]
    rintro ⟨ha, hz⟩
    have ha' : 65 ≤ (pyLowerChar c).toNat := ha
    have hz' : (pyLowerChar c).toNat ≤ 90 := hz
    omega

theorem pyLower_idem (s : List Char) : pyLower (pyLower s) = pyLower s := by
  unfold pyLower
  rw [List.map_map]
  exact List.map_congr_left fun c _ => pyLowerChar_idem c

theorem dropWhile_pySpace_pyLower (l : List Char) :
    (l.map pyLowerChar).dropWhile pySpace
      = (l.dropWhile pySpace).map pyLowerChar := by
  induction l with
  | nil => rfl
  | cons c rest ih =>
    simp only [List.map_cons, List.dropWhile_cons, pySpace_pyLowerChar]
    by_cases h : pySpace c = true
    · simp [h, ih]
    · simp [h]

theorem pyStrip_pyLower (s : List Char) :
    pyStrip (pyLower s) = pyLower (pyStrip s) := by
  unfold pyStrip pyLower
  rw [dropWhile_pySpace_pyLower, ← List.map_reverse, dropWhile_pySpace_pyLower,
    ← List.map_reverse]

theorem pySplitOn_ne_nil (sep : Char) (s : List Char) :
    pySplitOn sep s ≠ [] := by
  induction s with
  | nil => simp [pySplitOn]
  | cons c rest ih =>
    rw [pySplitOn]
    by_cases h : c = sep
    · simp [h]
    · simp only [if_neg h]
      cases hsplit : pySplitOn sep rest with
      | nil => exact absurd hsplit ih
      | cons a t => simp

theorem pySplitOn_pyLower (s : List Char) :
    pySplitOn '+' (pyLower s) = (pySplitOn '+' s).map pyLower := by
  induction s with
  | nil => rfl
  | cons c rest ih =>
    simp only [pyLower, List.map_cons] at ih ⊢
    rw [pySplitOn, pySplitOn]
    by_cases h : c = '+'
    · rw [if_pos (by rw [h]; rfl), if_pos h, ih]
      rfl
    · rw [if_neg (fun hl => h ((pyLowerChar_plus_iff c).1 hl)), if_neg h]
      obtain ⟨a, t, ha⟩ : ∃ a t, pySplitOn '+' rest = a :: t := by
        cases hsplit : pySplitOn '+' rest with
        | nil => exact absurd hsplit (pySplitOn_ne_nil '+' rest)
        | cons a t => exact ⟨a, t, rfl⟩
      rw [ha] at ih ⊢
      rw [ih]
      rfl

/-- The single-part state update of the `for part in parts` loop. -/
def partStep (part : List Char) (mods : Nat) (vk : Option Nat) :
    Nat × Option Nat :=
  if part = [] then (mods, vk)
  else if part = "ctrl".toList then (mods ||| MOD_CONTROL, vk)
  else if part = "alt".toList then (mods ||| MOD_ALT, vk)
  else if part = "shift".toList then (mods ||| MOD_SHIFT, vk)
  else if part = "meta".toList ∨ part = "win".toList then
    (mods ||| MOD_WIN, vk)
  else
    let vk1 :=
      if part.head? = some 'f' ∧ 1 < part.length then
        match pyInt (part.drop 1) with
        | some n => if 1 ≤ n ∧ n ≤ 12 then some (VK_F1 + (n - 1).toNat) else vk
        | none => vk
      else vk
    let vk2 :=
      if vk1 = none then
        match VK_CODE_MAP part with
        | some v => some v
        | none => vk1
      else vk1
    (mods, vk2)

theorem hotkeyPartsFold_cons_eq (p : List Char) (rest : List (List Char))
    (mods : Nat) (vk : Option Nat) :
    hotkeyPartsFold (p :: rest) mods vk
      = hotkeyPartsFold rest (partStep (pyLower (pyStrip p)) mods vk).1
          (partStep (pyLower (pyStrip p)) mods vk).2 := by
  simp only [hotkeyPartsFold, partStep]
  generalize pyLower (pyStrip p) = part
  by_cases h1 : part = []
  · rw [if_pos h1, if_pos h1]
  rw [if_neg h1, if_neg h1]
  by_cases h2 : part = "ctrl".toList
  · rw [if_pos h2, if_pos h2]
  rw [if_neg h2, if_neg h2]
  by_cases h3 : part = "alt".toList
  · rw [if_pos h3, if_pos h3]
  rw [if_neg h3, if_neg h3]
  by_cases h4 : part = "shift".toList
  · rw [if_pos h4, if_pos h4]
  rw [if_neg h4, if_neg h4]
  by_cases h5 : part = "meta".toList ∨ part = "win".toList
  · rw [if_pos h5, if_pos h5]
  rw [if_neg h5, if_neg h5]

theorem hotkeyPartsFold_map_pyLower (parts : List (List Char)) :
    ∀ (mods : Nat) (vk : Option Nat),
      hotkeyPartsFold (parts.map pyLower) mods vk
        = hotkeyPartsFold parts mods vk := by
  induction parts with
  | nil => intro mods vk; rfl
  | cons p rest ih =>
    intro mods vk
    rw [List.map_cons, hotkeyPartsFold_cons_eq, hotkeyPartsFold_cons_eq]
    rw [pyStrip_pyLower, pyLower_idem]
    exact ih ..

/-- `ui_to_win32_hotkey` depends only on the spec's lowercase: case-variants
convert identically. -/
theorem ui_to_win32_hotkey_pyLower (u : List Char) :
    ui_to_win32_hotkey (pyLower u) = ui_to_win32_hotkey u := by
  by_cases h : u = [] ∨ u = "#".toList
  · rcases h with rfl | rfl <;> rfl
  · have hne : ¬(pyLower u = [] ∨ pyLower u = "#".toList) := by
      rintro (hl | hl)
      · exact h (Or.inl (List.map_eq_nil_iff.1 hl))
      · refine h (Or.inr ?_)
        cases u with
        | nil => exact absurd hl (by decide)
        | cons c rest =>
          rw [show pyLower (c :: rest) = pyLowerChar c :: pyLower rest
              from rfl,
            show ("#".toList : List Char) = ['#'] from rfl] at hl
          injection hl with hc hrest
          rw [pyLowerChar_eq_low (by decide) hc, List.map_eq_nil_iff.1 hrest]
          rfl
    rw [ui_to_win32_hotkey, ui_to_win32_hotkey, if_neg hne, if_neg h]
    simp only [pySplitOn_pyLower, hotkeyPartsFold_map_pyLower]

/-- A case-variant `t` of a spec `s` whose combination is live in the OS
table can never be registered: its conversion equals `s`'s, `RegisterHotKey`
fails with 1409, and the hotkey map is unchanged — so no two case-variants
ever coexist in `_hotkeys`, which is what `unregister_case_insensitive`'s
uniqueness hypothesis states. -/
theorem case_variant_registration_fails (ext : Nat → Nat → Bool)
    (st : ListenerState) (s t : List Char) (m vk : Nat)
    (hconv : ui_to_win32_hotkey s = some (m, vk))
    (hos : ∃ id, (id, m, vk) ∈ st.os_registered)
    (hlc : pyLower t = pyLower s) :
    (register_hotkey ext st t).ok = false
  ∧ (register_hotkey ext st t).error_code = some 1409
  ∧ (register_hotkey ext st t).state.hotkeys = st.hotkeys := by
  have hconvT : ui_to_win32_hotkey t = some (m, vk) := by
    rw [← ui_to_win32_hotkey_pyLower t, hlc, ui_to_win32_hotkey_pyLower s,
      hconv]
  obtain ⟨id, hid⟩ := hos
  have hnotfree : comboFree st.os_registered m vk = false := by
    rw [comboFree, List.all_eq_false]
    exact ⟨(id, m, vk), hid, by simp⟩
  have hcond : (!ext m vk && comboFree st.os_registered m vk) = false := by
    simp [hnotfree]
  simp [register_hotkey, hconvT, hcond]

end AutoClicker
